import Mathlib

/-!
Verification of the GDELT news sentiment pipeline
(clean_code/gdelt_vader_news.py and the legacy gdelt_vader_news.py).

The development shallowly embeds the pipeline's core:
fetch/merge (GDELTFetcher.fetch_articles), sentiment scoring and labelling
(SentimentAnalyzer), timestamp parsing and schema projection (DataProcessor),
MongoDB upsert synchronisation (MongoDBSync.sync_articles), and the
top-N ranker (SentimentReporter.get_top_sentiment_urls).

Python floats are embedded as rationals, Python None as Option.none,
dicts of the fixed article schema as structures, and the document store as a
url-keyed map, matching the spec's description of the store as a
key-value/document store keyed by url.
-/

namespace GdeltNews

/-! ## Data model

A raw article as returned by one GDELT query: the schema fields the
pipeline reads.  Every field is optional because the source dictionaries
may omit any key (the code accesses them with dict.get). -/

structure RawArticle where
  url : Option String
  title : Option String
  domain : Option String
  seendate : Option String
  language : Option String
  sourcecountry : Option String
  url_mobile : Option String
  socialimage : Option String
deriving DecidableEq, Repr

/-- A UTC timestamp as produced by datetime.strptime(...).replace(tzinfo=utc). -/
structure UTCTime where
  year : Nat
  month : Nat
  day : Nat
  hour : Nat
  minute : Nat
  second : Nat
deriving DecidableEq, Repr

/-! ## SentimentAnalyzer (clean_code/gdelt_vader_news.py lines 154-180,
legacy gdelt_vader_news.py get_sentiment / get_label)

The external VADER analyzer is not part of this repository; it enters the
embedding as an arbitrary function from titles to compound scores.
SentimentAnalyzer.get_sentiment_score returns 0 for a falsy title
(Python: if not title, i.e. absent or empty) and the compound score otherwise. -/

def get_sentiment_score (vader : String → ℚ) (title : Option String) : ℚ :=
  match title with
  | Option.none => 0
  | Option.some t => if t = "" then 0 else vader t

/-- SentimentAnalyzer.get_sentiment_label: fixed inclusive thresholds. -/
def get_sentiment_label (score : ℚ) : String :=
  if score ≥ 0.05 then "Positive"
  else if score ≤ -0.05 then "Negative"
  else "Neutral"

/-! ## Theorems for the sentiment claims -/

/-- C6: for every score s, the label is Positive exactly when s ≥ 0.05,
Negative exactly when s ≤ −0.05, and Neutral otherwise (thresholds
inclusive).  The label is by construction a pure function of the score
alone (get_sentiment_label takes only the score). -/
theorem c6_label_thresholds (s : ℚ) :
    (get_sentiment_label s = "Positive" ↔ 0.05 ≤ s) ∧
    (get_sentiment_label s = "Negative" ↔ s ≤ -0.05) ∧
    (get_sentiment_label s = "Neutral" ↔ -0.05 < s ∧ s < 0.05) := by
  have hpn : ("Positive" : String) ≠ "Negative" := by decide
  have hpu : ("Positive" : String) ≠ "Neutral" := by decide
  have hnu : ("Negative" : String) ≠ "Neutral" := by decide
  unfold get_sentiment_label
  split_ifs with h1 h2
  · refine ⟨⟨fun _ => h1, fun _ => rfl⟩, ⟨fun h => absurd h hpn, fun h => by linarith⟩,
      ⟨fun h => absurd h hpu, fun h => by linarith [h.2]⟩⟩
  · refine ⟨⟨fun h => absurd h.symm hpn, fun h => absurd h h1⟩, ⟨fun _ => h2, fun _ => rfl⟩,
      ⟨fun h => absurd h hnu, fun h => by linarith [h.1]⟩⟩
  · refine ⟨⟨fun h => absurd h.symm hpu, fun h => absurd h h1⟩,
      ⟨fun h => absurd h.symm hnu, fun h => absurd h h2⟩,
      ⟨fun _ => ⟨by linarith, by linarith⟩, fun _ => rfl⟩⟩

/-- C7: if the external compound scorer is bounded in [−1, 1] (the spec's
contract for the lexicon/rule-based scorer), then every score produced by
get_sentiment_score lies in [−1, 1], and an absent or empty headline
scores exactly 0. -/
theorem c7_score_bounds (vader : String → ℚ) (title : Option String)
    (hb : ∀ t, -1 ≤ vader t ∧ vader t ≤ 1) :
    (-1 ≤ get_sentiment_score vader title ∧ get_sentiment_score vader title ≤ 1) ∧
    ((title = Option.none ∨ title = Option.some "") →
      get_sentiment_score vader title = 0) := by
  constructor
  · match title with
    | Option.none => constructor <;> norm_num [get_sentiment_score]
    | Option.some t =>
      by_cases h : t = ""
      · simp only [get_sentiment_score, h, if_pos rfl]
        constructor <;> norm_num
      · simp only [get_sentiment_score, if_neg h]
        exact hb t
  · rintro (h | h) <;> simp [h, get_sentiment_score]

/-- Witness for C7 at a concrete scorer and headline. -/
theorem c7_score_bounds_witness :
    (-1 ≤ get_sentiment_score (fun _ => 1/2) (Option.some "Markets surge") ∧
      get_sentiment_score (fun _ => 1/2) (Option.some "Markets surge") ≤ 1) ∧
    ((Option.some "Markets surge" = Option.none ∨
        Option.some "Markets surge" = Option.some "") →
      get_sentiment_score (fun _ => 1/2) (Option.some "Markets surge") = 0) :=
  c7_score_bounds (fun _ => 1/2) (Option.some "Markets surge")
    (fun _ => by norm_num)

/-! ## GDELTFetcher.fetch_articles (clean_code/gdelt_vader_news.py lines 90-151)

One query vector's outcome: the request may fail (network error, timeout,
or non-2xx from raise_for_status), the body may fail to parse as JSON
(response.json() raising ValueError), or it yields a parsed article list
(data.get("articles", [])).  Both failure branches hit a continue
statement, so the loop moves on to the next vector. -/

inductive VectorOutcome where
  | requestError
  | malformedBody
  | ok (articles : List RawArticle)
deriving DecidableEq, Repr

def VectorOutcome.isFailure : VectorOutcome → Bool
  | .requestError => true
  | .malformedBody => true
  | .ok _ => false

/-- The article list a vector contributes: failures contribute nothing. -/
def VectorOutcome.articles : VectorOutcome → List RawArticle
  | .requestError => []
  | .malformedBody => []
  | .ok arts => arts

/-- The body of the inner deduplication loop: url = art.get('url');
if url and url not in seen_urls: add url to the seen set and append the
article.  The seen set is modelled as a list used only through
membership. -/
def mergeStep : List RawArticle × List String → RawArticle → List RawArticle × List String
  | (all, seen), art =>
    match art.url with
    | Option.none => (all, seen)
    | Option.some u =>
      if u ≠ "" ∧ u ∉ seen then (all ++ [art], u :: seen) else (all, seen)

/-- One iteration of the outer loop over query vectors: a failed vector is
skipped (continue), a successful one runs the deduplication loop over its
articles in returned order. -/
def fetchStep (st : List RawArticle × List String) (o : VectorOutcome) :
    List RawArticle × List String :=
  match o with
  | VectorOutcome.requestError => st
  | VectorOutcome.malformedBody => st
  | VectorOutcome.ok arts => arts.foldl mergeStep st

/-- GDELTFetcher.fetch_articles: iterate the query vectors in declared
order and return the accumulated article list (empty when everything
failed; the function is total, so no exception escapes). -/
def fetch_articles (outcomes : List VectorOutcome) : List RawArticle :=
  (outcomes.foldl fetchStep ([], [])).1

/-- The merge of the per-vector response lists (the deduplication part of
fetch_articles, taking each vector's parsed article list as given). -/
def merge_vectors (vectors : List (List RawArticle)) : List RawArticle :=
  (vectors.foldl (fun st arts => arts.foldl mergeStep st) ([], [])).1

/-! Recursive restatement of the deduplication loop, used to reason about
the foldl: dedupGo seen l is the list of articles kept from l when the
urls in seen have already been taken, and seenAfter is the seen set
afterwards. -/

def dedupGo (seen : List String) : List RawArticle → List RawArticle
  | [] => []
  | a :: rest =>
    match a.url with
    | Option.none => dedupGo seen rest
    | Option.some u =>
      if u ≠ "" ∧ u ∉ seen then a :: dedupGo (u :: seen) rest
      else dedupGo seen rest

def seenAfter (seen : List String) : List RawArticle → List String
  | [] => seen
  | a :: rest =>
    match a.url with
    | Option.none => seenAfter seen rest
    | Option.some u =>
      if u ≠ "" ∧ u ∉ seen then seenAfter (u :: seen) rest
      else seenAfter seen rest

theorem foldl_mergeStep_eq (l : List RawArticle) :
    ∀ (all : List RawArticle) (seen : List String),
      l.foldl mergeStep (all, seen) = (all ++ dedupGo seen l, seenAfter seen l) := by
  induction l with
  | nil => intro all seen; simp [dedupGo, seenAfter]
  | cons a rest ih =>
    intro all seen
    match ha : a.url with
    | Option.none =>
      simp only [List.foldl_cons, mergeStep, ha, dedupGo, seenAfter]
      exact ih all seen
    | Option.some u =>
      by_cases h : u ≠ "" ∧ u ∉ seen
      · simp only [List.foldl_cons, mergeStep, ha, if_pos h, dedupGo, seenAfter]
        rw [ih (all ++ [a]) (u :: seen)]
        simp
      · simp only [List.foldl_cons, mergeStep, ha, if_neg h, dedupGo, seenAfter]
        exact ih all seen

theorem seenAfter_append (l₁ l₂ : List RawArticle) :
    ∀ seen, seenAfter seen (l₁ ++ l₂) = seenAfter (seenAfter seen l₁) l₂ := by
  induction l₁ with
  | nil => intro seen; simp [seenAfter]
  | cons a rest ih =>
    intro seen
    match ha : a.url with
    | Option.none =>
      simp only [List.cons_append, seenAfter, ha]
      exact ih seen
    | Option.some u =>
      by_cases h : u ≠ "" ∧ u ∉ seen
      · simp only [List.cons_append, seenAfter, ha, if_pos h]
        exact ih (u :: seen)
      · simp only [List.cons_append, seenAfter, ha, if_neg h]
        exact ih seen

theorem dedupGo_append (l₁ l₂ : List RawArticle) :
    ∀ seen, dedupGo seen (l₁ ++ l₂) =
      dedupGo seen l₁ ++ dedupGo (seenAfter seen l₁) l₂ := by
  induction l₁ with
  | nil => intro seen; simp [dedupGo, seenAfter]
  | cons a rest ih =>
    intro seen
    match ha : a.url with
    | Option.none =>
      simp only [List.cons_append, dedupGo, seenAfter, ha]
      exact ih seen
    | Option.some u =>
      by_cases h : u ≠ "" ∧ u ∉ seen
      · simp only [List.cons_append, dedupGo, seenAfter, ha, if_pos h, List.append_eq]
        rw [ih (u :: seen)]
      · simp only [List.cons_append, dedupGo, seenAfter, ha, if_neg h]
        exact ih seen

theorem merge_vectors_eq_dedup (vectors : List (List RawArticle)) :
    merge_vectors vectors = dedupGo [] vectors.flatten := by
  suffices h : ∀ (vss : List (List RawArticle)) (all : List RawArticle) (seen : List String),
      vss.foldl (fun st arts => arts.foldl mergeStep st) (all, seen) =
        (all ++ dedupGo seen vss.flatten, seenAfter seen vss.flatten) by
    unfold merge_vectors
    rw [h vectors [] []]
    simp
  intro vss
  induction vss with
  | nil => intro all seen; simp [dedupGo, seenAfter]
  | cons vs rest ih =>
    intro all seen
    simp only [List.foldl_cons, List.flatten_cons]
    rw [foldl_mergeStep_eq, ih, dedupGo_append, seenAfter_append]
    simp [List.append_assoc]

theorem fetch_articles_eq_merge (outcomes : List VectorOutcome) :
    fetch_articles outcomes = merge_vectors (outcomes.map VectorOutcome.articles) := by
  unfold fetch_articles merge_vectors
  rw [List.foldl_map]
  have hstep : fetchStep = fun st (o : VectorOutcome) => (o.articles).foldl mergeStep st := by
    funext st o
    cases o <;> rfl
  rw [hstep]

/-! Properties of the deduplicated merge. -/

theorem mem_dedupGo {a : RawArticle} :
    ∀ {seen : List String} {l : List RawArticle}, a ∈ dedupGo seen l →
      ∃ u, a.url = Option.some u ∧ u ≠ "" ∧ u ∉ seen := by
  intro seen l
  induction l generalizing seen with
  | nil => intro h; simp [dedupGo] at h
  | cons b rest ih =>
    intro h
    match hb : b.url with
    | Option.none =>
      simp only [dedupGo, hb] at h
      exact ih h
    | Option.some u =>
      simp only [dedupGo, hb] at h
      by_cases hc : u ≠ "" ∧ u ∉ seen
      · rw [if_pos hc] at h
        rcases List.mem_cons.mp h with h | h
        · exact ⟨u, h ▸ hb, hc⟩
        · obtain ⟨v, hv, hv1, hv2⟩ := ih h
          exact ⟨v, hv, hv1, fun hm => hv2 (List.mem_cons_of_mem _ hm)⟩
      · rw [if_neg hc] at h
        exact ih h

theorem dedupGo_pairwise (seen : List String) (l : List RawArticle) :
    (dedupGo seen l).Pairwise (fun a b => a.url ≠ b.url) := by
  induction l generalizing seen with
  | nil => exact List.Pairwise.nil
  | cons a rest ih =>
    match ha : a.url with
    | Option.none =>
      simp only [dedupGo, ha]
      exact ih seen
    | Option.some u =>
      simp only [dedupGo, ha]
      by_cases hc : u ≠ "" ∧ u ∉ seen
      · rw [if_pos hc]
        refine List.Pairwise.cons ?_ (ih (u :: seen))
        intro b hb
        obtain ⟨v, hv, _, hv2⟩ := mem_dedupGo hb
        rw [ha, hv]
        intro hcontra
        have huv : u = v := Option.some.inj hcontra
        exact hv2 (by rw [← huv]; exact List.mem_cons_self u seen)
      · rw [if_neg hc]
        exact ih seen

theorem dedupGo_sublist (seen : List String) (l : List RawArticle) :
    List.Sublist (dedupGo seen l) l := by
  induction l generalizing seen with
  | nil => exact List.Sublist.refl _
  | cons a rest ih =>
    match ha : a.url with
    | Option.none =>
      simp only [dedupGo, ha]
      exact List.Sublist.cons a (ih seen)
    | Option.some u =>
      simp only [dedupGo, ha]
      by_cases hc : u ≠ "" ∧ u ∉ seen
      · rw [if_pos hc]
        exact List.Sublist.cons₂ a (ih (u :: seen))
      · rw [if_neg hc]
        exact List.Sublist.cons a (ih seen)

theorem dedupGo_filter_seen {u : String} {seen : List String} (l : List RawArticle)
    (hu : u ∈ seen) :
    (dedupGo seen l).filter (fun a => decide (a.url = Option.some u)) = [] := by
  rw [List.filter_eq_nil_iff]
  intro a ha
  obtain ⟨v, hv, _, hv2⟩ := mem_dedupGo ha
  simp only [hv, decide_eq_true_eq, Option.some.injEq]
  intro hvu
  exact hv2 (hvu ▸ hu)

theorem dedupGo_filter_first {u : String} (hu : u ≠ "") :
    ∀ (l : List RawArticle) (seen : List String), u ∉ seen →
      (dedupGo seen l).filter (fun a => decide (a.url = Option.some u)) =
        (l.filter (fun a => decide (a.url = Option.some u))).take 1 := by
  intro l
  induction l with
  | nil => intro seen _; simp [dedupGo]
  | cons a rest ih =>
    intro seen hseen
    match ha : a.url with
    | Option.none =>
      have hskip : List.filter (fun x => decide (x.url = Option.some u)) (a :: rest) =
          List.filter (fun x => decide (x.url = Option.some u)) rest := by
        simp [List.filter_cons, ha]
      simp only [dedupGo, ha, hskip]
      exact ih seen hseen
    | Option.some v =>
      by_cases hvu : v = u
      · subst hvu
        have h1 : List.filter (fun x => decide (x.url = Option.some v))
            (a :: dedupGo (v :: seen) rest) =
            a :: List.filter (fun x => decide (x.url = Option.some v))
              (dedupGo (v :: seen) rest) := by
          simp [List.filter_cons, ha]
        have h2 : List.filter (fun x => decide (x.url = Option.some v)) (a :: rest) =
            a :: List.filter (fun x => decide (x.url = Option.some v)) rest := by
          simp [List.filter_cons, ha]
        simp only [dedupGo, ha, if_pos (And.intro hu hseen), h1, h2,
          dedupGo_filter_seen rest (List.mem_cons_self v seen)]
        simp
      · have hskip : List.filter (fun x => decide (x.url = Option.some u)) (a :: rest) =
            List.filter (fun x => decide (x.url = Option.some u)) rest := by
          simp [List.filter_cons, ha, hvu]
        simp only [dedupGo, ha, hskip]
        by_cases hc : v ≠ "" ∧ v ∉ seen
        · rw [if_pos hc]
          have hskipL : List.filter (fun x => decide (x.url = Option.some u))
              (a :: dedupGo (v :: seen) rest) =
              List.filter (fun x => decide (x.url = Option.some u))
                (dedupGo (v :: seen) rest) := by
            simp [List.filter_cons, ha, hvu]
          rw [hskipL]
          refine ih (v :: seen) ?_
          intro hmem
          rcases List.mem_cons.mp hmem with h | h
          · exact hvu h.symm
          · exact hseen h
        · rw [if_neg hc]
          exact ih seen hseen

/-! ## Theorems for the fetch and merge claims -/

/-- C1: a failing vector (network error, timeout, non-2xx, or malformed
body) contributes exactly an empty article list; the remaining vectors
still contribute (the run continues), i.e. the result equals the run with
that vector replaced by an empty success, which equals the run without
that vector; and if every vector fails the fetch stage returns the empty
list (the embedding is a total function returning a list, so the failures
raise nothing). -/
theorem c1_vector_failure_contributes_nothing (pre post : List VectorOutcome)
    (o : VectorOutcome) (hfail : o.isFailure = true) :
    fetch_articles (pre ++ o :: post) = fetch_articles (pre ++ VectorOutcome.ok [] :: post) ∧
    fetch_articles (pre ++ o :: post) = fetch_articles (pre ++ post) ∧
    (∀ outcomes : List VectorOutcome, (∀ o' ∈ outcomes, o'.isFailure = true) →
      fetch_articles outcomes = []) := by
  have hstep : ∀ (st : List RawArticle × List String), fetchStep st o = st := by
    intro st
    cases o with
    | requestError => rfl
    | malformedBody => rfl
    | ok arts => simp [VectorOutcome.isFailure] at hfail
  refine ⟨?_, ?_, ?_⟩
  · unfold fetch_articles
    rw [List.foldl_append, List.foldl_append, List.foldl_cons, List.foldl_cons, hstep]
    rfl
  · unfold fetch_articles
    rw [List.foldl_append, List.foldl_append, List.foldl_cons, hstep]
  · intro outcomes hall
    suffices h : ∀ (st : List RawArticle × List String), outcomes.foldl fetchStep st = st by
      unfold fetch_articles
      rw [h ([], [])]
    induction outcomes with
    | nil => intro st; rfl
    | cons o' rest ih =>
      intro st
      rw [List.foldl_cons]
      have hstep' : fetchStep st o' = st := by
        have hf := hall o' (List.mem_cons_self o' rest)
        cases o' with
        | requestError => rfl
        | malformedBody => rfl
        | ok arts => simp [VectorOutcome.isFailure] at hf
      rw [hstep']
      exact ih (fun x hx => hall x (List.mem_cons_of_mem o' hx)) st

/-- Witness for C1 at a concrete failing vector between two successes. -/
theorem c1_witness :
    fetch_articles
        ([VectorOutcome.ok []] ++ VectorOutcome.malformedBody :: [VectorOutcome.ok []]) =
      fetch_articles ([VectorOutcome.ok []] ++ VectorOutcome.ok [] :: [VectorOutcome.ok []]) :=
  (c1_vector_failure_contributes_nothing [VectorOutcome.ok []] [VectorOutcome.ok []]
    VectorOutcome.malformedBody (by decide)).1

/-- C2: for a fixed list of per-vector article lists, the merged sequence
has pairwise distinct urls, is a sublist of the concatenation of the
vectors in declared order (so each kept article is an unmodified input
record kept in first-seen order, with no field-by-field merge), and for
every candidate url the merge keeps exactly the first article of the
concatenation carrying that url, discarding later duplicates entirely.
The merge is a pure function of the per-vector lists, hence
deterministic. -/
theorem c2_merge_dedup (vectors : List (List RawArticle)) :
    (merge_vectors vectors).Pairwise (fun a b => a.url ≠ b.url) ∧
    List.Sublist (merge_vectors vectors) vectors.flatten ∧
    (∀ u : String, u ≠ "" →
      (merge_vectors vectors).filter (fun a => decide (a.url = Option.some u)) =
        (vectors.flatten.filter (fun a => decide (a.url = Option.some u))).take 1) := by
  rw [merge_vectors_eq_dedup]
  refine ⟨dedupGo_pairwise [] _, dedupGo_sublist [] _, ?_⟩
  intro u hu
  exact dedupGo_filter_first hu vectors.flatten [] (List.not_mem_nil u)

/-- A concrete article used by the witnesses (the spec's merge scenario). -/
def mkArticle (u t : String) : RawArticle :=
  { url := Option.some u, title := Option.some t, domain := Option.none,
    seendate := Option.none, language := Option.none, sourcecountry := Option.none,
    url_mobile := Option.none, socialimage := Option.none }

/-- Witness for C2 on the spec's scenario: vector one returns article a,
vector two returns a duplicate of a and a fresh article b. -/
theorem c2_witness :
    (merge_vectors [[mkArticle "a" "Markets surge on positive news"],
        [mkArticle "a" "dup", mkArticle "b" "Markets crash amid fears"]]).Pairwise
      (fun a b => a.url ≠ b.url) ∧
    List.Sublist
      (merge_vectors [[mkArticle "a" "Markets surge on positive news"],
        [mkArticle "a" "dup", mkArticle "b" "Markets crash amid fears"]])
      ([[mkArticle "a" "Markets surge on positive news"],
        [mkArticle "a" "dup", mkArticle "b" "Markets crash amid fears"]].flatten) ∧
    (merge_vectors [[mkArticle "a" "Markets surge on positive news"],
        [mkArticle "a" "dup", mkArticle "b" "Markets crash amid fears"]]).filter
      (fun a => decide (a.url = Option.some "a")) =
      ([[mkArticle "a" "Markets surge on positive news"],
        [mkArticle "a" "dup", mkArticle "b" "Markets crash amid fears"]].flatten.filter
        (fun a => decide (a.url = Option.some "a"))).take 1 := by
  have h := c2_merge_dedup [[mkArticle "a" "Markets surge on positive news"],
    [mkArticle "a" "dup", mkArticle "b" "Markets crash amid fears"]]
  exact ⟨h.1, h.2.1, h.2.2 "a" (by decide)⟩

/-! ## NormalizedRecord and MongoDBSync.sync_articles
(clean_code/gdelt_vader_news.py lines 236-257, legacy script lines 134-151)

A normalized record: the fixed eleven-column schema produced by
DataProcessor.prepare_dataframe. -/

structure NRecord where
  seendate_dt : Option UTCTime
  sentiment_score : ℚ
  sentiment_label : String
  title : Option String
  domain : Option String
  url : Option String
  url_mobile : Option String
  socialimage : Option String
  seendate : Option String
  language : Option String
  sourcecountry : Option String
deriving DecidableEq, Repr

/-- The MongoDB collection, modelled as a url-keyed document map, the
spec's external-interface contract for the store
(upsert with key url and the record as document).  update_one applies
"$set": record to the document matched by filter url = record.url; since
a record carries every schema field, this replaces the whole document at
that key.  pymongo's result.upserted_id is non-null exactly when no
document matched and the record was inserted. -/
def Store := Option String → Option NRecord

def update_one (store : Store) (r : NRecord) : Store × Bool :=
  (fun u => if u = r.url then Option.some r else store u, (store r.url).isNone)

/-- One iteration of the upsert loop, with the running
(new_count, updated_count) counters. -/
def syncStep : Store × Nat × Nat → NRecord → Store × Nat × Nat
  | (st, n, u), r =>
    let res := update_one st r
    if res.2 then (res.1, n + 1, u) else (res.1, n, u + 1)

/-- MongoDBSync.sync_articles: upsert each record in order, counting
inserts (new) and matches (updated). -/
def sync_articles (store : Store) (records : List NRecord) : Store × Nat × Nat :=
  records.foldl syncStep (store, 0, 0)

/-- The store state after the upsert loop, ignoring the counters. -/
def applyAll (store : Store) (records : List NRecord) : Store :=
  records.foldl (fun st r => (update_one st r).1) store

/-- The last record of the list carrying a given url, if any (the write
that wins at that key). -/
def lastWrite : List NRecord → Option String → Option NRecord
  | [], _ => Option.none
  | r :: rs, u =>
    (lastWrite rs u).elim (if r.url = u then Option.some r else Option.none) Option.some

theorem applyAll_eq (records : List NRecord) :
    ∀ (store : Store) (u : Option String),
      applyAll store records u = (lastWrite records u).elim (store u) Option.some := by
  induction records with
  | nil => intro store u; rfl
  | cons r rs ih =>
    intro store u
    have hstep : applyAll store (r :: rs) = applyAll (update_one store r).1 rs := rfl
    rw [hstep, ih]
    match hlw : lastWrite rs u with
    | Option.some r' => simp [lastWrite, hlw]
    | Option.none =>
      simp only [lastWrite, hlw, Option.elim, update_one]
      by_cases h : r.url = u
      · rw [if_pos h, if_pos h.symm]
      · rw [if_neg h, if_neg (fun hc => h hc.symm)]

theorem lastWrite_isSome_of_mem {r : NRecord} :
    ∀ {records : List NRecord}, r ∈ records → (lastWrite records r.url).isSome := by
  intro records
  induction records with
  | nil => intro h; simp at h
  | cons r' rs ih =>
    intro h
    match hlw : lastWrite rs r.url with
    | Option.some x => simp [lastWrite, hlw]
    | Option.none =>
      rcases List.mem_cons.mp h with h | h
      · subst h
        simp [lastWrite, hlw]
      · have := ih h
        rw [hlw] at this
        simp at this

theorem applyAll_isSome_of_mem {r : NRecord} {records : List NRecord}
    (store : Store) (h : r ∈ records) : (applyAll store records r.url).isSome := by
  rw [applyAll_eq]
  obtain ⟨x, hx⟩ := Option.isSome_iff_exists.mp (lastWrite_isSome_of_mem h)
  simp [hx]

theorem applyAll_idem (store : Store) (records : List NRecord) :
    applyAll (applyAll store records) records = applyAll store records := by
  funext u
  rw [applyAll_eq, applyAll_eq]
  match hlw : lastWrite records u with
  | Option.some r' => rfl
  | Option.none => simp [Option.elim]

theorem sync_fst_go (records : List NRecord) :
    ∀ (store : Store) (n u : Nat),
      (records.foldl syncStep (store, n, u)).1 = applyAll store records := by
  induction records with
  | nil => intro store n u; rfl
  | cons r rs ih =>
    intro store n u
    rw [List.foldl_cons]
    have happ : applyAll store (r :: rs) = applyAll (update_one store r).1 rs := rfl
    by_cases h : (update_one store r).2
    · rw [show syncStep (store, n, u) r = ((update_one store r).1, n + 1, u) by
        simp [syncStep, h]]
      rw [ih, happ]
    · rw [show syncStep (store, n, u) r = ((update_one store r).1, n, u + 1) by
        simp [syncStep, h]]
      rw [ih, happ]

theorem sync_counts_go (records : List NRecord) :
    ∀ (store : Store) (n u : Nat),
      (records.foldl syncStep (store, n, u)).2.1 + (records.foldl syncStep (store, n, u)).2.2 =
        n + u + records.length := by
  induction records with
  | nil => intro store n u; simp
  | cons r rs ih =>
    intro store n u
    rw [List.foldl_cons]
    by_cases h : (update_one store r).2
    · rw [show syncStep (store, n, u) r = ((update_one store r).1, n + 1, u) by
        simp [syncStep, h]]
      rw [ih]
      simp
      omega
    · rw [show syncStep (store, n, u) r = ((update_one store r).1, n, u + 1) by
        simp [syncStep, h]]
      rw [ih]
      simp
      omega

theorem sync_all_present_go (records : List NRecord) :
    ∀ (store : Store) (n u : Nat), (∀ r ∈ records, (store r.url).isSome) →
      records.foldl syncStep (store, n, u) =
        (applyAll store records, n, u + records.length) := by
  induction records with
  | nil => intro store n u _; rfl
  | cons r rs ih =>
    intro store n u hall
    rw [List.foldl_cons]
    have hpres : (store r.url).isSome := hall r (List.mem_cons_self r rs)
    have hnotnew : (update_one store r).2 = false := by
      obtain ⟨x, hx⟩ := Option.isSome_iff_exists.mp hpres
      simp [update_one, hx]
    rw [show syncStep (store, n, u) r = ((update_one store r).1, n, u + 1) by
      simp [syncStep, hnotnew]]
    rw [ih]
    · have happ : applyAll store (r :: rs) = applyAll (update_one store r).1 rs := rfl
      rw [happ]
      simp
      omega
    · intro r' hr'
      simp only [update_one]
      by_cases h : r'.url = r.url
      · rw [if_pos h]
        rfl
      · rw [if_neg h]
        exact hall r' (List.mem_cons_of_mem r hr')

/-- C3: the persistence sync performs one upsert per record keyed by url
(a full-document replace when the key matches, an insert otherwise —
this is the definition of update_one) and returns counts summing to the
number of records processed; replaying the same record sequence leaves
the stored state unchanged, with new_count 0 and updated_count equal to
the record count on the second run. -/
theorem c3_sync_counts_idempotent (store : Store) (records : List NRecord) :
    (sync_articles store records).2.1 + (sync_articles store records).2.2 = records.length ∧
    sync_articles (sync_articles store records).1 records =
      ((sync_articles store records).1, 0, records.length) := by
  constructor
  · have h := sync_counts_go records store 0 0
    simpa [sync_articles] using h
  · have hfst : (sync_articles store records).1 = applyAll store records :=
      sync_fst_go records store 0 0
    rw [hfst]
    have hpres : ∀ r ∈ records, ((applyAll store records) r.url).isSome :=
      fun r hr => applyAll_isSome_of_mem store hr
    have h := sync_all_present_go records (applyAll store records) 0 0 hpres
    unfold sync_articles
    rw [h, applyAll_idem]
    simp

/-! ## SentimentReporter.get_top_sentiment_urls
(clean_code/gdelt_vader_news.py lines 281-299)

pandas nlargest(n, col) with its default keep='first' selects the first
n rows of a stable descending sort on the column: it stable-argsorts the
negated column (mergesort kind) so ties keep their original row order and
earlier rows are prioritized, then takes the first n.  nsmallest is the
ascending counterpart.  List.mergeSort is a stable sort, so the embedding
is take n of the stable sort by the score. -/

def scoreDescLE (a b : NRecord) : Bool := decide (b.sentiment_score ≤ a.sentiment_score)

def scoreAscLE (a b : NRecord) : Bool := decide (a.sentiment_score ≤ b.sentiment_score)

def nlargestRecords (records : List NRecord) (n : Nat) : List NRecord :=
  (records.mergeSort scoreDescLE).take n

def nsmallestRecords (records : List NRecord) (n : Nat) : List NRecord :=
  (records.mergeSort scoreAscLE).take n

/-- SentimentReporter.get_top_sentiment_urls: empty input (or a frame
without the score column, not representable here since records are typed)
short-circuits to two empty url lists; otherwise the urls of the top_n
largest and smallest rows by sentiment_score. -/
def get_top_sentiment_urls (records : List NRecord) (top_n : Nat) :
    List (Option String) × List (Option String) :=
  if records.isEmpty then ([], [])
  else ((nlargestRecords records top_n).map (fun r => r.url),
        (nsmallestRecords records top_n).map (fun r => r.url))

theorem scoreDescLE_trans :
    ∀ a b c : NRecord, scoreDescLE a b → scoreDescLE b c → scoreDescLE a c := by
  intro a b c
  simp only [scoreDescLE, decide_eq_true_eq]
  intro h1 h2
  linarith

theorem scoreDescLE_total : ∀ a b : NRecord, scoreDescLE a b || scoreDescLE b a := by
  intro a b
  simp only [scoreDescLE, Bool.or_eq_true, decide_eq_true_eq]
  exact (le_total b.sentiment_score a.sentiment_score)

theorem scoreAscLE_trans :
    ∀ a b c : NRecord, scoreAscLE a b → scoreAscLE b c → scoreAscLE a c := by
  intro a b c
  simp only [scoreAscLE, decide_eq_true_eq]
  intro h1 h2
  linarith

theorem scoreAscLE_total : ∀ a b : NRecord, scoreAscLE a b || scoreAscLE b a := by
  intro a b
  simp only [scoreAscLE, Bool.or_eq_true, decide_eq_true_eq]
  exact (le_total a.sentiment_score b.sentiment_score)

/-- Stability of the stable-sort-take selection: within one score value
the selection is an in-order subsequence of the input. -/
theorem filter_take_mergeSort_sublist (records : List NRecord) (n : Nat)
    (le : NRecord → NRecord → Bool)
    (trans : ∀ a b c : NRecord, le a b → le b c → le a c)
    (total : ∀ a b : NRecord, le a b || le b a)
    (v : ℚ) (hv : ∀ a b : NRecord, a.sentiment_score = v → b.sentiment_score = v → le a b) :
    List.Sublist
      (((records.mergeSort le).take n).filter (fun r => decide (r.sentiment_score = v)))
      (records.filter (fun r => decide (r.sentiment_score = v))) := by
  set p : NRecord → Bool := fun r => decide (r.sentiment_score = v) with hp
  have hcp : (records.filter p).Pairwise (fun a b => le a b) := by
    apply List.pairwise_of_forall_mem_list
    intro a ha b hb
    have ha' := (List.mem_filter.mp ha).2
    have hb' := (List.mem_filter.mp hb).2
    rw [hp] at ha' hb'
    simp only [decide_eq_true_eq] at ha' hb'
    exact hv a b ha' hb'
  have hsub : List.Sublist (records.filter p) (records.mergeSort le) :=
    List.sublist_mergeSort trans total hcp (List.filter_sublist records)
  have hsub2 : List.Sublist ((records.filter p).filter p) ((records.mergeSort le).filter p) :=
    List.Sublist.filter p hsub
  rw [List.filter_eq_self.mpr (fun a ha => (List.mem_filter.mp ha).2)] at hsub2
  have hperm : List.Perm ((records.mergeSort le).filter p) (records.filter p) :=
    List.Perm.filter p (List.mergeSort_perm records le)
  have heq : (records.mergeSort le).filter p = records.filter p :=
    (List.Sublist.eq_of_length hsub2 hperm.length_eq.symm).symm
  have hfin : List.Sublist (((records.mergeSort le).take n).filter p)
      ((records.mergeSort le).filter p) :=
    List.Sublist.filter p (List.take_sublist n (records.mergeSort le))
  rw [heq] at hfin
  exact hfin

/-- When the whole input fits in the selection, the selection is a
permutation of the input. -/
theorem take_mergeSort_perm_all (records : List NRecord) (n : Nat)
    (le : NRecord → NRecord → Bool) (hlen : records.length ≤ n) :
    List.Perm ((records.mergeSort le).take n) records := by
  rw [List.take_of_length_le (by simpa using hlen)]
  exact List.mergeSort_perm records le

/-- The take-n of a sorted permutation splits the input into the selected
extreme block and a remainder it dominates. -/
theorem take_mergeSort_split (records : List NRecord) (n : Nat)
    (le : NRecord → NRecord → Bool)
    (trans : ∀ a b c : NRecord, le a b → le b c → le a c)
    (total : ∀ a b : NRecord, le a b || le b a) :
    ∃ rest, List.Perm ((records.mergeSort le).take n ++ rest) records ∧
      ∀ a ∈ (records.mergeSort le).take n, ∀ b ∈ rest, le a b := by
  refine ⟨(records.mergeSort le).drop n, ?_, ?_⟩
  · rw [List.take_append_drop]
    exact List.mergeSort_perm records le
  · have hsorted : (records.mergeSort le).Pairwise (fun a b => le a b) :=
      List.sorted_mergeSort trans total records
    rw [← List.take_append_drop n (records.mergeSort le), List.pairwise_append] at hsorted
    exact hsorted.2.2

/-- C4: the ranker's selections have length min n (input length), are
ordered by score (descending for most_positive, ascending for
most_negative), consist of the n extreme records (the input splits into
the selection and a remainder every selected record dominates), keep
equal-score records in their input order (stable selection), return
everything when fewer than n records exist, and yield two empty
sequences on empty input. -/
theorem c4_ranker (records : List NRecord) (n : Nat) :
    ((nlargestRecords records n).length = min n records.length ∧
      (nsmallestRecords records n).length = min n records.length) ∧
    ((nlargestRecords records n).Pairwise
        (fun a b => b.sentiment_score ≤ a.sentiment_score) ∧
      (nsmallestRecords records n).Pairwise
        (fun a b => a.sentiment_score ≤ b.sentiment_score)) ∧
    ((∃ rest, List.Perm (nlargestRecords records n ++ rest) records ∧
        ∀ a ∈ nlargestRecords records n, ∀ b ∈ rest,
          b.sentiment_score ≤ a.sentiment_score) ∧
      (∃ rest, List.Perm (nsmallestRecords records n ++ rest) records ∧
        ∀ a ∈ nsmallestRecords records n, ∀ b ∈ rest,
          a.sentiment_score ≤ b.sentiment_score)) ∧
    ((∀ v : ℚ, List.Sublist
        ((nlargestRecords records n).filter (fun r => decide (r.sentiment_score = v)))
        (records.filter (fun r => decide (r.sentiment_score = v)))) ∧
      (∀ v : ℚ, List.Sublist
        ((nsmallestRecords records n).filter (fun r => decide (r.sentiment_score = v)))
        (records.filter (fun r => decide (r.sentiment_score = v))))) ∧
    (records.length ≤ n →
      List.Perm (nlargestRecords records n) records ∧
      List.Perm (nsmallestRecords records n) records) ∧
    get_top_sentiment_urls [] n = ([], []) := by
  refine ⟨⟨?_, ?_⟩, ⟨?_, ?_⟩, ⟨?_, ?_⟩, ⟨?_, ?_⟩, ?_, rfl⟩
  · simp [nlargestRecords]
  · simp [nsmallestRecords]
  · have h := List.sorted_mergeSort scoreDescLE_trans scoreDescLE_total records
    have h2 := List.Pairwise.sublist (List.take_sublist n (records.mergeSort scoreDescLE)) h
    exact h2.imp (fun hab => by
      simpa [scoreDescLE, decide_eq_true_eq] using hab)
  · have h := List.sorted_mergeSort scoreAscLE_trans scoreAscLE_total records
    have h2 := List.Pairwise.sublist (List.take_sublist n (records.mergeSort scoreAscLE)) h
    exact h2.imp (fun hab => by
      simpa [scoreAscLE, decide_eq_true_eq] using hab)
  · obtain ⟨rest, hperm, hdom⟩ :=
      take_mergeSort_split records n scoreDescLE scoreDescLE_trans scoreDescLE_total
    exact ⟨rest, hperm, fun a ha b hb => by
      simpa [scoreDescLE, decide_eq_true_eq] using hdom a ha b hb⟩
  · obtain ⟨rest, hperm, hdom⟩ :=
      take_mergeSort_split records n scoreAscLE scoreAscLE_trans scoreAscLE_total
    exact ⟨rest, hperm, fun a ha b hb => by
      simpa [scoreAscLE, decide_eq_true_eq] using hdom a ha b hb⟩
  · intro v
    exact filter_take_mergeSort_sublist records n scoreDescLE scoreDescLE_trans
      scoreDescLE_total v (fun a b ha hb => by simp [scoreDescLE, ha, hb])
  · intro v
    exact filter_take_mergeSort_sublist records n scoreAscLE scoreAscLE_trans
      scoreAscLE_total v (fun a b ha hb => by simp [scoreAscLE, ha, hb])
  · intro hlen
    exact ⟨take_mergeSort_perm_all records n scoreDescLE hlen,
      take_mergeSort_perm_all records n scoreAscLE hlen⟩

/-- A concrete normalized record for the witnesses. -/
def mkNRecord (u : String) (s : ℚ) : NRecord :=
  { seendate_dt := Option.none, sentiment_score := s,
    sentiment_label := get_sentiment_label s, title := Option.none,
    domain := Option.none, url := Option.some u, url_mobile := Option.none,
    socialimage := Option.none, seendate := Option.none, language := Option.none,
    sourcecountry := Option.none }

/-- Witness for C4 at a concrete two-record batch, n = 3. -/
theorem c4_witness :
    (nlargestRecords [mkNRecord "a" 1, mkNRecord "b" (-1)] 3).length =
      min 3 [mkNRecord "a" 1, mkNRecord "b" (-1)].length ∧
    List.Perm (nlargestRecords [mkNRecord "a" 1, mkNRecord "b" (-1)] 3)
      [mkNRecord "a" 1, mkNRecord "b" (-1)] ∧
    List.Sublist
      ((nlargestRecords [mkNRecord "a" 1, mkNRecord "b" (-1)] 3).filter
        (fun r => decide (r.sentiment_score = 1)))
      ([mkNRecord "a" 1, mkNRecord "b" (-1)].filter
        (fun r => decide (r.sentiment_score = 1))) := by
  have h := c4_ranker [mkNRecord "a" 1, mkNRecord "b" (-1)] 3
  exact ⟨h.1.1, (h.2.2.2.2.1 (by decide)).1, h.2.2.2.1.1 1⟩

/-- C10: the two selections are not disjoint: whenever the input is
nonempty and has at most n records, every record's url — in particular
that of a single-record input — appears in both the most_positive and the
most_negative selection, because the two extremes are computed
independently over the same sequence. -/
theorem c10_selections_not_disjoint (records : List NRecord) (n : Nat)
    (hne : records ≠ []) (hlen : records.length ≤ n) :
    ∀ r ∈ records, r.url ∈ (get_top_sentiment_urls records n).1 ∧
      r.url ∈ (get_top_sentiment_urls records n).2 := by
  intro r hr
  have hempty : records.isEmpty = false := by
    cases records with
    | nil => exact absurd rfl hne
    | cons a l => rfl
  have hpos := take_mergeSort_perm_all records n scoreDescLE hlen
  have hneg := take_mergeSort_perm_all records n scoreAscLE hlen
  rw [get_top_sentiment_urls, hempty]
  simp only [Bool.false_eq_true, if_false]
  constructor
  · exact List.mem_map.mpr ⟨r, hpos.mem_iff.mpr hr, rfl⟩
  · exact List.mem_map.mpr ⟨r, hneg.mem_iff.mpr hr, rfl⟩

/-- Witness for C10: a single-record input puts the same url in both
selections. -/
theorem c10_witness :
    (mkNRecord "a" 0).url ∈ (get_top_sentiment_urls [mkNRecord "a" 0] 3).1 ∧
    (mkNRecord "a" 0).url ∈ (get_top_sentiment_urls [mkNRecord "a" 0] 3).2 :=
  c10_selections_not_disjoint [mkNRecord "a" 0] 3 (List.cons_ne_nil _ _) (by decide)
    (mkNRecord "a" 0) (List.mem_cons_self _ _)

/-! ## DataProcessor.parse_gdelt_time
(clean_code/gdelt_vader_news.py lines 186-195, legacy script lines 86-93)

datetime.strptime compiles the format "%Y%m%dT%H%M%SZ" into the regex
(with named groups elided, compiled with IGNORECASE and required to
consume the whole input)
  dddd (1[0-2]|0[1-9]|[1-9]) (3[0-1]|[1-2]d|0[1-9]|[1-9]| [1-9]) T
  (2[0-3]|[0-1]d|d) ([0-5]d|d) (6[0-1]|[0-5]d|d) Z
where d stands for a digit.  Alternation backtracks left to right: a
field tries its alternatives in order and a failing continuation falls
back to the next alternative.  The matched fields then go through
datetime(...), whose range validation (year 1..9999, day valid for the
month, second at most 59) raises ValueError, and the bare except in
parse_gdelt_time turns any failure into None.  The embedding mirrors the
regex field by field: each field function returns its candidate
(value, remaining input) pairs in alternation order and List.findSome?
implements the ordered backtracking. -/

def digitVal (c : Char) : Nat := c.toNat - 48

def monthAlts : List Char → List (Nat × List Char)
  | c₁ :: c₂ :: rest =>
    (if c₁ = '1' ∧ '0' ≤ c₂ ∧ c₂ ≤ '2' then [(10 + digitVal c₂, rest)] else []) ++
    (if c₁ = '0' ∧ '1' ≤ c₂ ∧ c₂ ≤ '9' then [(digitVal c₂, rest)] else []) ++
    (if '1' ≤ c₁ ∧ c₁ ≤ '9' then [(digitVal c₁, c₂ :: rest)] else [])
  | [c₁] => if '1' ≤ c₁ ∧ c₁ ≤ '9' then [(digitVal c₁, [])] else []
  | [] => []

def dayAlts : List Char → List (Nat × List Char)
  | c₁ :: c₂ :: rest =>
    (if c₁ = '3' ∧ '0' ≤ c₂ ∧ c₂ ≤ '1' then [(30 + digitVal c₂, rest)] else []) ++
    (if ('1' ≤ c₁ ∧ c₁ ≤ '2') ∧ c₂.isDigit then [(10 * digitVal c₁ + digitVal c₂, rest)]
      else []) ++
    (if c₁ = '0' ∧ '1' ≤ c₂ ∧ c₂ ≤ '9' then [(digitVal c₂, rest)] else []) ++
    (if '1' ≤ c₁ ∧ c₁ ≤ '9' then [(digitVal c₁, c₂ :: rest)] else []) ++
    (if c₁ = ' ' ∧ '1' ≤ c₂ ∧ c₂ ≤ '9' then [(digitVal c₂, rest)] else [])
  | [c₁] => if '1' ≤ c₁ ∧ c₁ ≤ '9' then [(digitVal c₁, [])] else []
  | [] => []

def hourAlts : List Char → List (Nat × List Char)
  | c₁ :: c₂ :: rest =>
    (if c₁ = '2' ∧ '0' ≤ c₂ ∧ c₂ ≤ '3' then [(20 + digitVal c₂, rest)] else []) ++
    (if ('0' ≤ c₁ ∧ c₁ ≤ '1') ∧ c₂.isDigit then [(10 * digitVal c₁ + digitVal c₂, rest)]
      else []) ++
    (if c₁.isDigit then [(digitVal c₁, c₂ :: rest)] else [])
  | [c₁] => if c₁.isDigit then [(digitVal c₁, [])] else []
  | [] => []

def minuteAlts : List Char → List (Nat × List Char)
  | c₁ :: c₂ :: rest =>
    (if ('0' ≤ c₁ ∧ c₁ ≤ '5') ∧ c₂.isDigit then [(10 * digitVal c₁ + digitVal c₂, rest)]
      else []) ++
    (if c₁.isDigit then [(digitVal c₁, c₂ :: rest)] else [])
  | [c₁] => if c₁.isDigit then [(digitVal c₁, [])] else []
  | [] => []

def secondAlts : List Char → List (Nat × List Char)
  | c₁ :: c₂ :: rest =>
    (if c₁ = '6' ∧ '0' ≤ c₂ ∧ c₂ ≤ '1' then [(60 + digitVal c₂, rest)] else []) ++
    (if ('0' ≤ c₁ ∧ c₁ ≤ '5') ∧ c₂.isDigit then [(10 * digitVal c₁ + digitVal c₂, rest)]
      else []) ++
    (if c₁.isDigit then [(digitVal c₁, c₂ :: rest)] else [])
  | [c₁] => if c₁.isDigit then [(digitVal c₁, [])] else []
  | [] => []

def parseFromSecond (y m d h mi : Nat) (cs : List Char) : Option UTCTime :=
  List.findSome?
    (fun sr =>
      match sr.2 with
      | [z] => if z = 'Z' ∨ z = 'z' then Option.some ⟨y, m, d, h, mi, sr.1⟩ else Option.none
      | _ => Option.none)
    (secondAlts cs)

def parseFromMinute (y m d h : Nat) (cs : List Char) : Option UTCTime :=
  List.findSome? (fun mr => parseFromSecond y m d h mr.1 mr.2) (minuteAlts cs)

def parseFromHour (y m d : Nat) (cs : List Char) : Option UTCTime :=
  List.findSome? (fun hr => parseFromMinute y m d hr.1 hr.2) (hourAlts cs)

def parseFromT (y m d : Nat) : List Char → Option UTCTime
  | t :: cs => if t = 'T' ∨ t = 't' then parseFromHour y m d cs else Option.none
  | [] => Option.none

def parseFromDay (y m : Nat) (cs : List Char) : Option UTCTime :=
  List.findSome? (fun dr => parseFromT y m dr.1 dr.2) (dayAlts cs)

def parseFromMonth (y : Nat) (cs : List Char) : Option UTCTime :=
  List.findSome? (fun mr => parseFromDay y mr.1 mr.2) (monthAlts cs)

/-- The regex match of the whole format: four digit chars for the year,
then the flexible month/day/T/hour/minute/second/Z tail. -/
def strptimeGdelt : List Char → Option UTCTime
  | y₁ :: y₂ :: y₃ :: y₄ :: rest =>
    if y₁.isDigit ∧ y₂.isDigit ∧ y₃.isDigit ∧ y₄.isDigit then
      parseFromMonth
        (1000 * digitVal y₁ + 100 * digitVal y₂ + 10 * digitVal y₃ + digitVal y₄) rest
    else Option.none
  | _ => Option.none

def isLeapYear (y : Nat) : Bool := y % 4 = 0 ∧ (y % 100 ≠ 0 ∨ y % 400 = 0)

def daysInMonth (y m : Nat) : Nat :=
  if m = 2 then (if isLeapYear y then 29 else 28)
  else if m = 4 ∨ m = 6 ∨ m = 9 ∨ m = 11 then 30
  else 31

/-- The datetime(...) constructor's range validation. -/
def validDatetime (t : UTCTime) : Bool :=
  decide (1 ≤ t.year) && decide (t.year ≤ 9999) && decide (1 ≤ t.month) &&
  decide (t.month ≤ 12) && decide (1 ≤ t.day) &&
  decide (t.day ≤ daysInMonth t.year t.month) && decide (t.hour ≤ 23) &&
  decide (t.minute ≤ 59) && decide (t.second ≤ 59)

/-- DataProcessor.parse_gdelt_time: None for an absent value (pd.isna) or
the empty string, then strptime with the fixed format, any failure
yielding None through the bare except. -/
def parse_gdelt_time (t : Option String) : Option UTCTime :=
  match t with
  | Option.none => Option.none
  | Option.some s =>
    if s = "" then Option.none
    else
      match strptimeGdelt s.toList with
      | Option.none => Option.none
      | Option.some tf => if validDatetime tf then Option.some tf else Option.none

/-! The canonical zero-padded rendering YYYYMMDDThhmmssZ of a field
tuple, used to state what the spec calls the fixed format. -/

def pad2 (n : Nat) : List Char := [Char.ofNat (48 + n / 10), Char.ofNat (48 + n % 10)]

def pad4 (n : Nat) : List Char :=
  [Char.ofNat (48 + n / 1000), Char.ofNat (48 + n / 100 % 10),
   Char.ofNat (48 + n / 10 % 10), Char.ofNat (48 + n % 10)]

def gdeltCanonical (y m d h mi s : Nat) : String :=
  String.mk (pad4 y ++ pad2 m ++ pad2 d ++ ['T'] ++ pad2 h ++ pad2 mi ++ pad2 s ++ ['Z'])

theorem findSome?_eq_of_head {α β : Type} (f : α → Option β) (a : α) (as : List α) (b : β)
    (h : f a = Option.some b) : List.findSome? f (a :: as) = Option.some b := by
  rw [List.findSome?_cons_of_isSome as (by rw [h]; rfl), h]

theorem dig_isDigit {k : Nat} (hk : k ≤ 9) : (Char.ofNat (48 + k)).isDigit = true := by
  interval_cases k <;> decide

theorem digitVal_dig {k : Nat} (hk : k ≤ 9) : digitVal (Char.ofNat (48 + k)) = k := by
  interval_cases k <;> decide

/-! Stage lemmas: on the canonical two-digit renderings the first
alternative that matches is always the full two-digit value, and its
continuation succeeds, so the backtracking search returns it. -/

theorem secondStage (s : Nat) (hs : s ≤ 59) (y m d h mi : Nat) :
    parseFromSecond y m d h mi (pad2 s ++ ['Z']) = Option.some ⟨y, m, d, h, mi, s⟩ := by
  obtain ⟨q, r, hq, hr, rfl⟩ : ∃ q r, q ≤ 5 ∧ r ≤ 9 ∧ 10 * q + r = s :=
    ⟨s / 10, s % 10, by omega, by omega, by omega⟩
  interval_cases q <;> interval_cases r <;> rfl

theorem minuteStage (mi : Nat) (hmi : mi ≤ 59) (s : Nat) (hs : s ≤ 59) (y m d h : Nat) :
    parseFromMinute y m d h (pad2 mi ++ pad2 s ++ ['Z']) =
      Option.some ⟨y, m, d, h, mi, s⟩ := by
  have hsec := secondStage s hs y m d h mi
  interval_cases mi <;> exact findSome?_eq_of_head _ _ _ _ hsec

theorem hourStage (h : Nat) (hh : h ≤ 23) (mi : Nat) (hmi : mi ≤ 59) (s : Nat)
    (hs : s ≤ 59) (y m d : Nat) :
    parseFromHour y m d (pad2 h ++ pad2 mi ++ pad2 s ++ ['Z']) =
      Option.some ⟨y, m, d, h, mi, s⟩ := by
  have hmin := minuteStage mi hmi s hs y m d h
  interval_cases h <;> exact findSome?_eq_of_head _ _ _ _ hmin

theorem dayStage (d : Nat) (hd1 : 1 ≤ d) (hd : d ≤ 31) (h : Nat) (hh : h ≤ 23) (mi : Nat)
    (hmi : mi ≤ 59) (s : Nat) (hs : s ≤ 59) (y m : Nat) :
    parseFromDay y m (pad2 d ++ 'T' :: (pad2 h ++ pad2 mi ++ pad2 s ++ ['Z'])) =
      Option.some ⟨y, m, d, h, mi, s⟩ := by
  have hhr : parseFromT y m d ('T' :: (pad2 h ++ pad2 mi ++ pad2 s ++ ['Z'])) =
      Option.some ⟨y, m, d, h, mi, s⟩ := by
    have := hourStage h hh mi hmi s hs y m d
    simpa [parseFromT] using this
  interval_cases d <;> exact findSome?_eq_of_head _ _ _ _ hhr

theorem monthStage (m : Nat) (hm1 : 1 ≤ m) (hm : m ≤ 12) (d : Nat) (hd1 : 1 ≤ d)
    (hd : d ≤ 31) (h : Nat) (hh : h ≤ 23) (mi : Nat) (hmi : mi ≤ 59) (s : Nat)
    (hs : s ≤ 59) (y : Nat) :
    parseFromMonth y (pad2 m ++ pad2 d ++ 'T' :: (pad2 h ++ pad2 mi ++ pad2 s ++ ['Z'])) =
      Option.some ⟨y, m, d, h, mi, s⟩ := by
  have hday := dayStage d hd1 hd h hh mi hmi s hs y m
  interval_cases m <;> exact findSome?_eq_of_head _ _ _ _ hday

theorem strptime_canonical (y m d h mi s : Nat) (hy : y ≤ 9999) (hm1 : 1 ≤ m)
    (hm : m ≤ 12) (hd1 : 1 ≤ d) (hd : d ≤ 31) (hh : h ≤ 23) (hmi : mi ≤ 59)
    (hs : s ≤ 59) :
    strptimeGdelt
        (pad4 y ++ pad2 m ++ pad2 d ++ ['T'] ++ pad2 h ++ pad2 mi ++ pad2 s ++ ['Z']) =
      Option.some ⟨y, m, d, h, mi, s⟩ := by
  obtain ⟨a, b, c, e, ha, hb, hc, he, rfl⟩ :
      ∃ a b c e, a ≤ 9 ∧ b ≤ 9 ∧ c ≤ 9 ∧ e ≤ 9 ∧ 1000 * a + 100 * b + 10 * c + e = y :=
    ⟨y / 1000, y / 100 % 10, y / 10 % 10, y % 10, by omega, by omega, by omega, by omega,
      by omega⟩
  have hpad : pad4 (1000 * a + 100 * b + 10 * c + e) =
      [Char.ofNat (48 + a), Char.ofNat (48 + b), Char.ofNat (48 + c), Char.ofNat (48 + e)] := by
    simp only [pad4, List.cons.injEq, and_true]
    refine ⟨?_, ?_, ?_, ?_⟩ <;> congr 1 <;> omega
  rw [hpad]
  have hshape :
      ([Char.ofNat (48 + a), Char.ofNat (48 + b), Char.ofNat (48 + c), Char.ofNat (48 + e)] ++
        pad2 m ++ pad2 d ++ ['T'] ++ pad2 h ++ pad2 mi ++ pad2 s ++ ['Z']) =
        Char.ofNat (48 + a) :: Char.ofNat (48 + b) :: Char.ofNat (48 + c) ::
          Char.ofNat (48 + e) ::
          (pad2 m ++ pad2 d ++ 'T' :: (pad2 h ++ pad2 mi ++ pad2 s ++ ['Z'])) := by
    simp
  rw [hshape]
  rw [strptimeGdelt]
  rw [if_pos ⟨dig_isDigit ha, dig_isDigit hb, dig_isDigit hc, dig_isDigit he⟩]
  rw [digitVal_dig ha, digitVal_dig hb, digitVal_dig hc, digitVal_dig he]
  exact monthStage m hm1 hm d hd1 hd h hh mi hmi s hs _

/-! ## Theorems for the timestamp claim -/

/-- C8 counterexample: the 15-character input 2025128T101500Z is not in
the 16-character fixed format YYYYMMDDThhmmssZ, yet the parser returns a
timestamp (2025-12-08 10:15:00 UTC) rather than None, because strptime's
field regexes also accept one-digit months, days, hours, minutes and
seconds.  This refutes the claim that exactly the fixed-format inputs are
accepted. -/
theorem c8_counterexample :
    parse_gdelt_time (Option.some "2025128T101500Z") =
      Option.some ⟨2025, 12, 8, 10, 15, 0⟩ ∧
    "2025128T101500Z".length = 15 := by
  constructor
  · decide
  · decide

/-- C8 as amended: the parser accepts every fixed-format string
YYYYMMDDThhmmssZ whose fields denote a valid UTC instant and returns
exactly those fields; absent or empty input (and unparsable garbage)
yields None without raising (the embedding is a total function); and it
additionally accepts certain shorter variants in which month, day, hour,
minute or second are written with fewer digits, every accepted input
yielding a range-valid timestamp. -/
theorem c8_timestamp_parse :
    (parse_gdelt_time Option.none = Option.none ∧
      parse_gdelt_time (Option.some "") = Option.none ∧
      parse_gdelt_time (Option.some "garbage") = Option.none) ∧
    (∀ y m d h mi s : Nat, 1 ≤ y → y ≤ 9999 → 1 ≤ m → m ≤ 12 → 1 ≤ d →
      d ≤ daysInMonth y m → h ≤ 23 → mi ≤ 59 → s ≤ 59 →
      parse_gdelt_time (Option.some (gdeltCanonical y m d h mi s)) =
        Option.some ⟨y, m, d, h, mi, s⟩) ∧
    (∀ (s : String) (t : UTCTime),
      parse_gdelt_time (Option.some s) = Option.some t → validDatetime t = true) := by
  refine ⟨⟨rfl, rfl, rfl⟩, ?_, ?_⟩
  · intro y m d h mi s hy1 hy hm1 hm hd1 hd hh hmi hs
    have hd31 : d ≤ 31 := by
      have : daysInMonth y m ≤ 31 := by
        unfold daysInMonth
        split_ifs <;> simp
      omega
    have hne : gdeltCanonical y m d h mi s ≠ "" := by
      intro hc
      have hdata := congrArg String.data hc
      simp [gdeltCanonical, pad4] at hdata
    have htl : (gdeltCanonical y m d h mi s).toList =
        pad4 y ++ pad2 m ++ pad2 d ++ ['T'] ++ pad2 h ++ pad2 mi ++ pad2 s ++ ['Z'] := rfl
    rw [parse_gdelt_time, if_neg hne, htl,
      strptime_canonical y m d h mi s hy hm1 hm hd1 hd31 hh hmi hs]
    have hvalid : validDatetime ⟨y, m, d, h, mi, s⟩ = true := by
      simp only [validDatetime, Bool.and_eq_true, decide_eq_true_eq]
      exact ⟨⟨⟨⟨⟨⟨⟨⟨hy1, hy⟩, hm1⟩, hm⟩, hd1⟩, hd⟩, hh⟩, hmi⟩, hs⟩
    simp [hvalid]
  · intro s t hparse
    rw [parse_gdelt_time] at hparse
    by_cases hemp : s = ""
    · rw [if_pos hemp] at hparse
      exact absurd hparse (by simp)
    · rw [if_neg hemp] at hparse
      match hst : strptimeGdelt s.toList with
      | Option.none => rw [hst] at hparse; exact absurd hparse (by simp)
      | Option.some tf =>
        rw [hst] at hparse
        by_cases hv : validDatetime tf = true
        · simp only [hv, if_true] at hparse
          rw [← Option.some.inj hparse]
          exact hv
        · simp only [hv, if_false] at hparse
          exact absurd hparse (by simp)

/-- Witness for C8 at the spec's scenario timestamp 20251128T101500Z. -/
theorem c8_witness :
    parse_gdelt_time (Option.some (gdeltCanonical 2025 11 28 10 15 0)) =
      Option.some ⟨2025, 11, 28, 10, 15, 0⟩ ∧
    parse_gdelt_time (Option.some "") = Option.none := by
  have h := c8_timestamp_parse
  exact ⟨h.2.1 2025 11 28 10 15 0 (by decide) (by decide) (by decide) (by decide)
    (by decide) (by decide) (by decide) (by decide) (by decide), h.1.2.1⟩

/-! ## DataProcessor.prepare_dataframe
(clean_code/gdelt_vader_news.py lines 197-216, legacy script lines 95-105)

A pandas DataFrame is modelled column-major: an ordered association list
of column name to column values (frames built by the pipeline keep all
columns the same length).  Assigning df[col] replaces an existing column
in place or appends a new one at the end; assigning the scalar None
broadcasts a column of None of the frame's row count; df[cols] projects
onto the listed columns in the listed order; to_dict("records") gives
every row the same keys, the frame's columns. -/

inductive PyVal where
  | none
  | str (s : String)
  | num (q : ℚ)
  | time (t : UTCTime)
deriving DecidableEq, Repr

abbrev DataFrame := List (String × List PyVal)

def hasCol (df : DataFrame) (c : String) : Bool := df.any (fun p => p.1 = c)

def getCol (df : DataFrame) (c : String) : List PyVal :=
  ((df.find? (fun p => p.1 = c)).map Prod.snd).getD []

def setCol (df : DataFrame) (c : String) (vs : List PyVal) : DataFrame :=
  if hasCol df c then df.map (fun p => if p.1 = c then (c, vs) else p)
  else df ++ [(c, vs)]

def nrowsOf (df : DataFrame) : Nat := (df.head?.map (fun p => p.2.length)).getD 0

def desired_columns : List String :=
  ["seendate_dt", "sentiment_score", "sentiment_label", "title",
   "domain", "url", "url_mobile", "socialimage", "seendate",
   "language", "sourcecountry"]

/-- A cell value handed to parse_gdelt_time: pd.isna(t) holds for the
absent marker, everything else goes through str(t). -/
def pyToParserInput : PyVal → Option String
  | PyVal.none => Option.none
  | PyVal.str s => Option.some s
  | PyVal.num q => Option.some (toString q)
  | PyVal.time _ => Option.none

def timeToPyVal : Option UTCTime → PyVal
  | Option.none => PyVal.none
  | Option.some t => PyVal.time t

/-- The seendate-parsing step: if 'seendate' in df.columns, add the
seendate_dt column by applying parse_gdelt_time. -/
def addSeendateDt (df : DataFrame) : DataFrame :=
  if hasCol df "seendate" then
    setCol df "seendate_dt"
      ((getCol df "seendate").map
        (fun v => timeToPyVal (parse_gdelt_time (pyToParserInput v))))
  else df

/-- The add-missing-columns loop: for col in desired_columns, if absent,
df[col] = None (a column of None of the frame's row count). -/
def addMissing (df : DataFrame) : DataFrame :=
  desired_columns.foldl
    (fun d c =>
      if hasCol d c then d else setCol d c (List.replicate (nrowsOf d) PyVal.none))
    df

/-- DataProcessor.prepare_dataframe: parse dates, materialize missing
columns, then project onto the desired columns in order. -/
def prepare_dataframe (df : DataFrame) : DataFrame :=
  desired_columns.map (fun c => (c, getCol (addMissing (addSeendateDt df)) c))

/-- df_final.to_dict("records"): one dict per row, keyed by the frame's
columns. -/
def to_records (df : DataFrame) : List (List (String × PyVal)) :=
  (List.range (nrowsOf df)).map (fun i => df.map (fun p => (p.1, p.2.getD i PyVal.none)))

/-! Lemmas about the add-missing-columns loop. -/

theorem hasCol_append_single {df : DataFrame} {c c' : String} {vs : List PyVal} :
    hasCol (df ++ [(c', vs)]) c = (hasCol df c || decide (c' = c)) := by
  simp [hasCol, List.any_append]

theorem hasCol_cons_false {p : String × List PyVal} {rest : DataFrame} {c : String}
    (h : hasCol (p :: rest) c = false) :
    (decide (p.1 = c)) = false ∧ hasCol rest c = false := by
  simp only [hasCol, List.any_cons, Bool.or_eq_false_iff] at h
  exact h

theorem getCol_append_single_self {df : DataFrame} {c : String} {vs : List PyVal}
    (h : hasCol df c = false) : getCol (df ++ [(c, vs)]) c = vs := by
  induction df with
  | nil => simp [getCol, List.find?]
  | cons p rest ih =>
    obtain ⟨hp, hrest⟩ := hasCol_cons_false h
    rw [List.cons_append, getCol, List.find?]
    rw [hp]
    exact ih hrest

theorem getCol_append_single_other {df : DataFrame} {c c' : String} {vs : List PyVal}
    (h : hasCol df c = true) : getCol (df ++ [(c', vs)]) c = getCol df c := by
  induction df with
  | nil => simp [hasCol] at h
  | cons p rest ih =>
    by_cases hc : p.1 = c
    · rw [List.cons_append, getCol, getCol, List.find?, List.find?]
      simp [hc]
    · have hrest : hasCol rest c = true := by
        rw [hasCol] at h ⊢
        simp [List.any_cons, hc] at h
        simp [h]
      rw [List.cons_append, getCol, getCol, List.find?, List.find?]
      rw [show (decide (p.1 = c)) = false by simp [hc]]
      exact ih hrest

/-- One loop step: the frame's row count is unchanged. -/
theorem nrowsOf_step (d : DataFrame) (c : String) :
    nrowsOf (if hasCol d c then d else setCol d c (List.replicate (nrowsOf d) PyVal.none)) =
      nrowsOf d := by
  by_cases h : hasCol d c
  · rw [if_pos h]
  · rw [if_neg h, setCol, if_neg h]
    match d with
    | [] => rfl
    | p :: rest => rfl

theorem hasCol_step_preserved {d : DataFrame} {c : String} (c' : String)
    (h : hasCol d c = true) :
    hasCol (if hasCol d c' then d
      else setCol d c' (List.replicate (nrowsOf d) PyVal.none)) c = true := by
  by_cases h' : hasCol d c'
  · rwa [if_pos h']
  · rw [if_neg h', setCol, if_neg h', hasCol_append_single, h]
    rfl

theorem getCol_step_preserved {d : DataFrame} {c c' : String} (h : hasCol d c = true) :
    getCol (if hasCol d c' then d
      else setCol d c' (List.replicate (nrowsOf d) PyVal.none)) c = getCol d c := by
  by_cases h' : hasCol d c'
  · rw [if_pos h']
  · rw [if_neg h', setCol, if_neg h']
    exact getCol_append_single_other h

/-- Once a column is present, the rest of the loop leaves it alone. -/
theorem foldl_present (cols : List String) :
    ∀ (d : DataFrame) (c : String), hasCol d c = true →
      getCol (cols.foldl
        (fun d c =>
          if hasCol d c then d else setCol d c (List.replicate (nrowsOf d) PyVal.none)) d) c =
        getCol d c ∧
      hasCol (cols.foldl
        (fun d c =>
          if hasCol d c then d else setCol d c (List.replicate (nrowsOf d) PyVal.none)) d) c =
        true := by
  induction cols with
  | nil => intro d c h; exact ⟨rfl, h⟩
  | cons c' cols' ih =>
    intro d c h
    rw [List.foldl_cons]
    have h1 := hasCol_step_preserved c' h
    obtain ⟨hg, hh⟩ := ih _ c h1
    exact ⟨hg.trans (getCol_step_preserved h), hh⟩

/-- A column missing before the loop but listed in it comes out as a
column of None of the original row count. -/
theorem foldl_missing (cols : List String) :
    ∀ (d : DataFrame) (c : String), c ∈ cols → hasCol d c = false →
      getCol (cols.foldl
        (fun d c =>
          if hasCol d c then d else setCol d c (List.replicate (nrowsOf d) PyVal.none)) d) c =
        List.replicate (nrowsOf d) PyVal.none := by
  induction cols with
  | nil => intro d c hmem; simp at hmem
  | cons c' cols' ih =>
    intro d c hmem hmiss
    rw [List.foldl_cons]
    by_cases hcc : c' = c
    · subst hcc
      rw [if_neg (by rw [hmiss]; exact Bool.false_ne_true), setCol, if_neg (by
        rw [hmiss]; exact Bool.false_ne_true)]
      have hnow : hasCol (d ++ [(c', List.replicate (nrowsOf d) PyVal.none)]) c' = true := by
        rw [hasCol_append_single]
        simp
      obtain ⟨hg, -⟩ := foldl_present cols' _ c' hnow
      rw [hg]
      exact getCol_append_single_self hmiss
    · by_cases h' : hasCol d c'
      · rw [if_pos h']
        exact ih d c ((List.mem_cons.mp hmem).resolve_left (fun h => hcc h.symm)) hmiss
      · rw [if_neg h']
        have hmem' : c ∈ cols' := by
          rcases List.mem_cons.mp hmem with h | h
          · exact absurd h.symm hcc
          · exact h
        have hmiss' : hasCol (setCol d c' (List.replicate (nrowsOf d) PyVal.none)) c = false := by
          rw [setCol, if_neg h', hasCol_append_single, hmiss]
          simp [hcc]
        have hrows : nrowsOf (setCol d c' (List.replicate (nrowsOf d) PyVal.none)) =
            nrowsOf d := by
          have := nrowsOf_step d c'
          rwa [if_neg h'] at this
        rw [ih _ c hmem' hmiss', hrows]

/-- Projection: looking up a listed column in the projected frame gives
the projected value. -/
theorem getCol_projection (cols : List String) (g : String → List PyVal) (c : String)
    (h : c ∈ cols) : getCol (cols.map (fun c => (c, g c))) c = g c := by
  induction cols with
  | nil => simp at h
  | cons c' cols' ih =>
    by_cases hc : c' = c
    · subst hc
      rw [List.map_cons, getCol, List.find?]
      simp
    · rw [List.map_cons, getCol, List.find?]
      rw [show (decide ((c', g c').1 = c)) = false by simp [hc]]
      rw [← getCol]
      exact ih ((List.mem_cons.mp h).resolve_left (fun hx => hc hx.symm))

/-- C9: after normalization every record carries exactly the eleven
schema columns, in schema order; a column missing from the input (after
the seendate parse) is materialized as a full column of None rather than
dropped, and a present column passes through. -/
theorem c9_fixed_schema (df : DataFrame) :
    desired_columns.length = 11 ∧
    (prepare_dataframe df).map Prod.fst = desired_columns ∧
    (∀ r ∈ to_records (prepare_dataframe df), r.map Prod.fst = desired_columns) ∧
    (∀ c ∈ desired_columns, hasCol (addSeendateDt df) c = false →
      getCol (prepare_dataframe df) c =
        List.replicate (nrowsOf (addSeendateDt df)) PyVal.none) ∧
    (∀ c ∈ desired_columns, hasCol (addSeendateDt df) c = true →
      getCol (prepare_dataframe df) c = getCol (addSeendateDt df) c) := by
  have hproj : (prepare_dataframe df).map Prod.fst = desired_columns := by
    rw [prepare_dataframe, List.map_map]
    exact List.map_id desired_columns
  refine ⟨rfl, hproj, ?_, ?_, ?_⟩
  · intro r hr
    rw [to_records] at hr
    obtain ⟨i, -, rfl⟩ := List.mem_map.mp hr
    rw [List.map_map]
    exact hproj
  · intro c hc hmiss
    rw [prepare_dataframe, getCol_projection desired_columns _ c hc]
    rw [addMissing] at *
    exact foldl_missing desired_columns (addSeendateDt df) c hc hmiss
  · intro c hc hpres
    rw [prepare_dataframe, getCol_projection desired_columns _ c hc]
    exact (foldl_present desired_columns (addSeendateDt df) c hpres).1

/-- Witness for C9 at a concrete two-column input frame. -/
theorem c9_witness :
    getCol (prepare_dataframe [("title", [PyVal.str "Markets surge"]),
        ("url", [PyVal.str "a"])]) "domain" =
      List.replicate
        (nrowsOf (addSeendateDt [("title", [PyVal.str "Markets surge"]),
          ("url", [PyVal.str "a"])])) PyVal.none ∧
    getCol (prepare_dataframe [("title", [PyVal.str "Markets surge"]),
        ("url", [PyVal.str "a"])]) "title" =
      getCol (addSeendateDt [("title", [PyVal.str "Markets surge"]),
        ("url", [PyVal.str "a"])]) "title" := by
  have h := c9_fixed_schema [("title", [PyVal.str "Markets surge"]), ("url", [PyVal.str "a"])]
  exact ⟨h.2.2.2.1 "domain" (by decide) (by decide), h.2.2.2.2 "title" (by decide) (by decide)⟩

/-! ## GDELTSentimentPipeline.run and the main block
(clean_code/gdelt_vader_news.py lines 326-355 and 365-385)

run fetches, scores, normalizes and (when sync_to_mongo is set) connects
to MongoDB and syncs inside the same method, with no try/except around
the persistence calls: an exception raised while reaching the store
propagates out of run before the return statement, so the computed frame
is not returned.  The main block computes the ranked selection only
from run's return value.  The embedding threads persistence failure
through the Except monad: an unavailable store makes run yield the error
instead of the computed records. -/

/-- Row-wise composition of the analyze and prepare stages on one merged
article: VADER score and label from the title, parsed timestamp from
seendate, the remaining schema fields copied (absent when missing). -/
def toNRecord (vader : String → ℚ) (a : RawArticle) : NRecord :=
  { seendate_dt := parse_gdelt_time a.seendate,
    sentiment_score := get_sentiment_score vader a.title,
    sentiment_label := get_sentiment_label (get_sentiment_score vader a.title),
    title := a.title, domain := a.domain, url := a.url, url_mobile := a.url_mobile,
    socialimage := a.socialimage, seendate := a.seendate, language := a.language,
    sourcecountry := a.sourcecountry }

inductive PipelineError where
  | mongoUnavailable
deriving DecidableEq, Repr

/-- GDELTSentimentPipeline.run: empty fetch returns an empty frame
early; otherwise the normalized frame is built and, when syncing, the
store must be reachable — an unreachable store raises out of run and the
frame is lost (the error branch carries no records). -/
def run (vader : String → ℚ) (outcomes : List VectorOutcome) (sync_to_mongo : Bool)
    (store : Store) (mongoAvailable : Bool) :
    Except PipelineError (List NRecord × Store) :=
  let articles := fetch_articles outcomes
  if articles.isEmpty then Except.ok ([], store)
  else
    let df_final := articles.map (toNRecord vader)
    if sync_to_mongo then
      if mongoAvailable then Except.ok (df_final, (sync_articles store df_final).1)
      else Except.error PipelineError.mongoUnavailable
    else Except.ok (df_final, store)

/-- The main block: run with sync_to_mongo=True, then the ranked
selection from the returned frame; an exception from run aborts before
the ranking. -/
def main_top_urls (vader : String → ℚ) (outcomes : List VectorOutcome) (store : Store)
    (mongoAvailable : Bool) :
    Except PipelineError (List (Option String) × List (Option String)) :=
  match run vader outcomes true store mongoAvailable with
  | Except.error e => Except.error e
  | Except.ok (df, _) => Except.ok (get_top_sentiment_urls df 3)

def emptyStore : Store := fun _ => Option.none

/-- C5 evaluated at a failing input: with one successful vector and an
unreachable persistence store, the normalized record set is nonempty
(fetch, score and normalization all succeeded), yet run propagates the
persistence error instead of returning the computed frame, and the main
block therefore never produces the ranked selection.  This contradicts
the claim that a persistence connection failure is fatal to the
persistence stage only and leaves the ranked selection available. -/
theorem c5_connection_failure_discards_results :
    (fetch_articles [VectorOutcome.ok [mkArticle "a" "Markets surge"]]).map
        (toNRecord (fun _ => 0)) ≠ [] ∧
    run (fun _ => 0) [VectorOutcome.ok [mkArticle "a" "Markets surge"]] true
        emptyStore false = Except.error PipelineError.mongoUnavailable ∧
    main_top_urls (fun _ => 0) [VectorOutcome.ok [mkArticle "a" "Markets surge"]]
        emptyStore false = Except.error PipelineError.mongoUnavailable := by
  refine ⟨?_, rfl, rfl⟩
  intro h
  simp [fetch_articles, fetchStep, mergeStep, mkArticle] at h

end GdeltNews
